import Mathlib

/-!
Verification of the `mogzs` single-domain web crawler
(`src/crawler/main.py`, configuration in `src/crawler/config.py`).

The development shallowly embeds the crawler's core:

* a model of CPython's `urllib.parse.urlparse` / `urlsplit` (the crawler's
  URL machinery is built directly on it), faithful to the CPython >= 3.11
  algorithm on the fragment it exercises: scheme extraction, netloc
  splitting with the "Invalid IPv6 URL" `ValueError` on mismatched square
  brackets, fragment/query stripping, and `;`-parameter splitting for
  schemes in `uses_params`.  Unicode NFKC netloc validation, bracketed-host
  validation and control-character stripping are not modelled; no claim
  depends on them.  Python `str.lower()` is modelled on ASCII via
  `Char.toLower`, which agrees with it on the scheme characters involved.
* `WebsiteCrawler.normalize_url`, `is_valid_url`, `get_encoding`,
  `save_page`'s URL-to-path mapping, `extract_links`, and the `crawl` loop.
  Network fetches, `chardet` detection, codec decoding and HTML href
  extraction are oracles supplied by an `Env` record; everything after the
  oracles is the code's own logic, translated statement by statement.
-/

namespace Mogzs

/-! ### Definitions -/

/-- The characters CPython's `urlsplit` accepts inside a URL scheme. -/
def isSchemeChar (c : Char) : Bool :=
  c.isAlpha || c.isDigit || c = '+' || c = '-' || c = '.'

instance exceptDecEq {ε α : Type} [DecidableEq ε] [DecidableEq α] :
    DecidableEq (Except ε α) := fun a b =>
  match a, b with
  | .ok x, .ok y =>
    if h : x = y then .isTrue (by rw [h])
    else .isFalse (by intro hh; injection hh; contradiction)
  | .ok _, .error _ => .isFalse (by intro hh; injection hh)
  | .error _, .ok _ => .isFalse (by intro hh; injection hh)
  | .error e, .error f =>
    if h : e = f then .isTrue (by rw [h])
    else .isFalse (by intro hh; injection hh; contradiction)

/-- Scheme extraction step of `urlsplit`: if the URL has the shape
`scheme ':' rest` with a nonempty scheme that starts with an ASCII letter and
consists of scheme characters only, the scheme is split off and lowercased;
otherwise the scheme is empty and the URL is left untouched. -/
def splitScheme (cs : List Char) : List Char × List Char :=
  match cs.dropWhile (fun c => c ≠ ':') with
  | _ :: rest =>
    match cs.takeWhile (fun c => c ≠ ':') with
    | [] => ([], cs)
    | c0 :: pre =>
      if c0.isAlpha && (c0 :: pre).all isSchemeChar
      then ((c0 :: pre).map Char.toLower, rest)
      else ([], cs)
  | [] => ([], cs)

/-- Characters that end the netloc part (`urllib.parse._splitnetloc`). -/
def isNetlocEnd (c : Char) : Bool := c = '/' || c = '?' || c = '#'

/-- Fragment and query extraction of `urlsplit`: split off everything after
the first `#`, then everything after the first `?` of what is left.
Returns `(path, query, fragment)`. -/
def splitTail (u : List Char) : List Char × List Char × List Char :=
  ((u.takeWhile (fun c => c ≠ '#')).takeWhile (fun c => c ≠ '?'),
   ((u.takeWhile (fun c => c ≠ '#')).dropWhile (fun c => c ≠ '?')).drop 1,
   (u.dropWhile (fun c => c ≠ '#')).drop 1)

/-- Model of `urllib.parse.urlsplit` (CPython >= 3.11), as
`(scheme, netloc, path, query, fragment)`.  Mirrors the reference
implementation: scheme split, `//`-prefixed netloc split stopping at
`/ ? #`, the `ValueError "Invalid IPv6 URL"` raised when exactly one of
`[` `]` occurs in the netloc, then fragment and query splits. -/
def urlsplitL (cs : List Char) :
    Except String (List Char × List Char × List Char × List Char × List Char) :=
  if (splitScheme cs).2.take 2 = ['/', '/'] then
    if ('[' ∈ ((splitScheme cs).2.drop 2).takeWhile (fun c => !(isNetlocEnd c)) ↔
        ']' ∈ ((splitScheme cs).2.drop 2).takeWhile (fun c => !(isNetlocEnd c))) then
      .ok ((splitScheme cs).1, ((splitScheme cs).2.drop 2).takeWhile (fun c => !(isNetlocEnd c)),
        (splitTail (((splitScheme cs).2.drop 2).dropWhile (fun c => !(isNetlocEnd c)))).1,
        (splitTail (((splitScheme cs).2.drop 2).dropWhile (fun c => !(isNetlocEnd c)))).2.1,
        (splitTail (((splitScheme cs).2.drop 2).dropWhile (fun c => !(isNetlocEnd c)))).2.2)
    else .error "Invalid IPv6 URL"
  else .ok ((splitScheme cs).1, [], (splitTail (splitScheme cs).2).1,
    (splitTail (splitScheme cs).2).2.1, (splitTail (splitScheme cs).2).2.2)

/-- The `uses_params` scheme list of `urllib.parse`. -/
def usesParams : List (List Char) :=
  [[], "ftp".data, "hdl".data, "prospero".data, "http".data, "imap".data,
   "https".data, "shttp".data, "rtsp".data, "rtspu".data, "sip".data,
   "sips".data, "mms".data, "sftp".data, "tel".data]

/-- The segment of `p` after its last `/` (all of `p` when it has no `/`). -/
def lastSeg (p : List Char) : List Char :=
  (p.reverse.takeWhile (fun c => c ≠ '/')).reverse

/-- Model of `urllib.parse._splitparams`: split `;`-parameters off the last
path segment.  In `urlparse` it is only invoked when `';' ∈ path`. -/
def splitparamsL (p : List Char) : List Char × List Char :=
  if '/' ∈ p then
    if ';' ∈ lastSeg p then
      (p.take (p.length - (lastSeg p).length) ++ (lastSeg p).takeWhile (fun c => c ≠ ';'),
       ((lastSeg p).dropWhile (fun c => c ≠ ';')).drop 1)
    else (p, [])
  else
    (p.takeWhile (fun c => c ≠ ';'), (p.dropWhile (fun c => c ≠ ';')).drop 1)

/-- The result record of `urllib.parse.urlparse`. -/
structure URLParts where
  scheme : List Char
  netloc : List Char
  path : List Char
  params : List Char
  query : List Char
  fragment : List Char
deriving DecidableEq, Repr

/-- Model of `urllib.parse.urlparse`: `urlsplit` plus parameter splitting
for schemes in `uses_params`. -/
def urlparseL (cs : List Char) : Except String URLParts :=
  match urlsplitL cs with
  | .error e => .error e
  | .ok (s, n, p, q, f) =>
    if s ∈ usesParams ∧ ';' ∈ p then
      .ok ⟨s, n, (splitparamsL p).1, (splitparamsL p).2, q, f⟩
    else .ok ⟨s, n, p, [], q, f⟩

/-- `WebsiteCrawler.normalize_url`:
`parsed.scheme + "://" + parsed.netloc + parsed.path`.
An `Except.error` models the `ValueError` that `urlparse` can raise. -/
def normalize_url (u : String) : Except String String :=
  match urlparseL u.data with
  | .error e => .error e
  | .ok p => .ok ⟨p.scheme ++ ':' :: '/' :: '/' :: (p.netloc ++ p.path)⟩

/-- `WebsiteCrawler.is_valid_url`:
`parsed.netloc == base_parsed.netloc and parsed.scheme in ('http', 'https')`,
parsing the candidate URL first and then the base URL, with parse errors
propagating as exceptions exactly as in the Python code. -/
def is_valid_url (base url : String) : Except String Bool :=
  match urlparseL url.data with
  | .error e => .error e
  | .ok p =>
    match urlparseL base.data with
    | .error e => .error e
    | .ok b =>
      .ok (p.netloc == b.netloc && (p.scheme == "http".data || p.scheme == "https".data))

/-- `os.path.join` restricted to two components, as used by `save_page`:
an absolute second component discards the first; otherwise the parts are
joined with a `/` unless the first is empty or already ends in `/`. -/
def osJoin (a b : String) : String :=
  if b.data.take 1 = ['/'] then b
  else if a.data = [] ∨ a.data.getLast? = some '/' then a ++ b
  else a ++ "/" ++ b

/-- `os.path.basename` for the paths at hand: the part after the last `/`. -/
def osBasename (s : String) : String := ⟨lastSeg s.data⟩

/-- `str.lstrip('/')`: drop every leading `/`. -/
def stripSlashes (p : String) : String := ⟨p.data.dropWhile (fun c => c = '/')⟩

/-- The URL-path-to-file-path mapping of `WebsiteCrawler.save_page`:
`path = parsed.path.lstrip('/')`, then empty path becomes `index.html`,
a path ending in `/` gets `index.html` appended via `os.path.join`, a path
whose `os.path.basename` has no `.` gets `.html` appended, anything else
is kept. -/
def mapPath (p : String) : String :=
  if stripSlashes p = "" then "index.html"
  else if (stripSlashes p).data.getLast? = some '/' then osJoin (stripSlashes p) "index.html"
  else if !((osBasename (stripSlashes p)).data.contains '.') then stripSlashes p ++ ".html"
  else stripSlashes p

/-- The relative file path `save_page` computes for a fetched URL:
`urlparse(url).path` passed through `mapPath`.  The `Except.error` models
the `ValueError` that `urlparse` can raise inside `save_page`. -/
def save_path (url : String) : Except String String :=
  match urlparseL url.data with
  | .error e => .error e
  | .ok p => .ok (mapPath ⟨p.path⟩)

/-- `WebsiteCrawler.get_encoding`: use the response's declared encoding
unless it is missing, empty, or the generic `iso-8859-1` fallback, in which
case ask the detector (`chardet.detect`); an absent or empty answer falls
back to `utf-8`.  `detect` is the byte-pattern-detection oracle. -/
def get_encoding (detect : List Nat → Option String) (respEncoding : Option String)
    (body : List Nat) : String :=
  let encoding :=
    if respEncoding.getD "" = "" ∨ (respEncoding.getD "").toLower = "iso-8859-1"
    then detect body
    else respEncoding
  match encoding with
  | none => "utf-8"
  | some e => if e = "" then "utf-8" else e

/-- What the crawler consumes from one `requests` response. -/
structure Response where
  status : Nat
  body : List Nat
  encoding : Option String
deriving DecidableEq

/-- A crawl environment: the site configuration plus the external effects
the loop body consumes, as oracles.  `fetch u = none` models
`session.get` raising a network exception; `decode e b = none` models
`bytes.decode(e)` raising `UnicodeDecodeError`; `decodeReplace` is the
total `bytes.decode('utf-8', errors='replace')`; `parseHrefs u content`
is the list of `urljoin(u, a['href'])` values that `BeautifulSoup` plus
`urljoin` produce from the decoded page, in document order. -/
structure Env where
  base : String
  maxPages : Nat
  fetch : String → Option Response
  detect : List Nat → Option String
  decode : String → List Nat → Option String
  decodeReplace : List Nat → String
  parseHrefs : String → String → List String

/-- The encoding the crawler decodes a response with. -/
def resolvedEncoding (env : Env) (r : Response) : String :=
  get_encoding env.detect r.encoding r.body

/-- Lines 113-117 of `crawl`: decode under the resolved encoding, falling
back to `utf-8` with `errors='replace'` on `UnicodeDecodeError`. -/
def pageContent (env : Env) (r : Response) : String :=
  match env.decode (resolvedEncoding env r) r.body with
  | some c => c
  | none => env.decodeReplace r.body

/-- `WebsiteCrawler.extract_links`, on the absolute href list of a page:
normalize each, keep it when `is_valid_url` holds and it is not yet
visited; a `ValueError` from `urlparse` aborts the whole extraction. -/
def extract_links (base : String) (hrefs : List String) (visited : Finset String) :
    Except String (Finset String) :=
  match hrefs with
  | [] => .ok ∅
  | h :: t =>
    match normalize_url h with
    | .error e => .error e
    | .ok n =>
      match is_valid_url base h with
      | .error e => .error e
      | .ok v =>
        match extract_links base t visited with
        | .error e => .error e
        | .ok rest => .ok (if v ∧ n ∉ visited then insert n rest else rest)

/-- The outcome of processing one dequeued URL: links to enqueue, the file
path written (with its `Saved:` log line), whether an
`Error crawling <url>` line was logged, and whether `time.sleep` ran. -/
structure StepResult where
  newLinks : Finset String
  savedPath : Option String
  errored : Bool
  slept : Bool
deriving DecidableEq

/-- The status-200 branch of the loop body, given the decoded content:
`save_page` writes the mapped path (a `ValueError` inside it aborts before
the write), then `extract_links` runs (a `ValueError` there keeps the file
already written but enqueues nothing); only a completed branch reaches
`time.sleep`. -/
def handlePage (env : Env) (visited : Finset String) (u : String) (content : String) :
    StepResult :=
  let hrefs := env.parseHrefs u content
  match save_path u with
  | .error _ => ⟨∅, none, true, false⟩
  | .ok p =>
    match extract_links env.base hrefs visited with
    | .error _ => ⟨∅, some p, true, false⟩
    | .ok links => ⟨links, some p, false, true⟩

/-- Lines 110-133 of `crawl`: fetch the URL; a network exception is caught
and logged; a 200 response is decoded, saved and mined for links; any
other status does nothing but still reaches `time.sleep`. -/
def processURL (env : Env) (visited : Finset String) (u : String) : StepResult :=
  match env.fetch u with
  | none => ⟨∅, none, true, false⟩
  | some r =>
    if r.status = 200 then handlePage env visited u (pageContent env r)
    else ⟨∅, none, false, true⟩

/-- The mutable state of one `crawl()` run, with its observation trace. -/
structure CrawlState where
  visited : Finset String
  toVisit : Finset String
  fetched : List String
  saved : List String
  errors : List String
  slept : Nat
deriving DecidableEq

/-- One iteration of the `while` loop on an already-popped URL `u`:
a URL already in `visited_urls` is skipped (`continue`, before the `try`),
otherwise the URL is processed and the `finally` block adds it to
`visited_urls`. -/
def crawlStep (env : Env) (s : CrawlState) (u : String) : CrawlState :=
  if u ∈ s.visited then { s with toVisit := s.toVisit.erase u }
  else
    let r := processURL env s.visited u
    { visited := insert u s.visited
      toVisit := (s.toVisit.erase u) ∪ r.newLinks
      fetched := s.fetched ++ [u]
      saved := s.saved ++ r.savedPath.toList
      errors := s.errors ++ (if r.errored then [u] else [])
      slept := s.slept + (if r.slept then 1 else 0) }

/-- The `while self.to_visit_urls and len(self.visited_urls) < self.max_pages`
loop.  `sel` models the arbitrary element order of Python's `set.pop`; the
`fuel` bound only truncates runs, every theorem below holds for all fuels. -/
def crawlLoop (env : Env) (sel : Finset String → String) : Nat → CrawlState → CrawlState
  | 0, s => s
  | fuel + 1, s =>
    if s.toVisit.Nonempty ∧ s.visited.card < env.maxPages then
      crawlLoop env sel fuel (crawlStep env s (sel s.toVisit))
    else s

/-- The loop's exit condition: the frontier is exhausted or the budget is
reached (the `Done` state of the spec's state machine). -/
def loopDone (env : Env) (s : CrawlState) : Prop :=
  ¬(s.toVisit.Nonempty ∧ s.visited.card < env.maxPages)

/-- The initial state of a run seeded with one normalized URL. -/
def initState (seed : String) : CrawlState := ⟨∅, {seed}, [], [], [], 0⟩

/-- A crawl run from an already-normalized seed. -/
def crawlFrom (env : Env) (sel : Finset String → String) (fuel : Nat) (seed : String) :
    CrawlState :=
  crawlLoop env sel fuel (initState seed)

/-- `WebsiteCrawler.crawl`: seed the frontier with
`normalize_url(base_url)` (whose `ValueError` would propagate) and run the
loop. -/
def crawlRun (env : Env) (sel : Finset String → String) (fuel : Nat) :
    Except String CrawlState :=
  match normalize_url env.base with
  | .error e => .error e
  | .ok seed => .ok (crawlFrom env sel fuel seed)

/-- A concrete selection function modelling one admissible `set.pop`
order: pop the member that comes first in the priority list `prio`.
Every theorem below holds for an arbitrary selection function; this one
only drives the concrete runs. -/
def selBy (prio : List String) (s : Finset String) : String :=
  (prio.find? (fun u => decide (u ∈ s))).getD ""

/-- Whether the loop body reaches `time.sleep` when it dequeues `u` fresh:
only a fetch that returns a response and whose processing raises no
exception does. -/
def attemptSleeps (env : Env) (u : String) : Bool := (processURL env ∅ u).slept

/-- The string `normalize_url` rebuilds from a parse result. -/
def normalizedL (r : URLParts) : List Char :=
  r.scheme ++ ':' :: '/' :: '/' :: (r.netloc ++ r.path)

/-- The Path Mapper rules exactly as the spec words them, applied to the
path stripped of leading slashes (the spec's own examples, `"/a/"` to
`a/index.html`, fix that reading): empty path to `index.html`, trailing
slash appends `index.html`, a final segment without a `.` appends `.html`,
anything else verbatim. -/
def specPathMap (q : String) : String :=
  if q = "" then "index.html"
  else if q.data.getLast? = some '/' then q ++ "index.html"
  else if ¬ ((osBasename q).data.contains '.' = true) then q ++ ".html"
  else q

/-- The `/`-separated segments of a relative path (like `str.split('/')`). -/
def segsAux (cs : List Char) (cur : List Char) : List (List Char) :=
  match cs with
  | [] => [cur.reverse]
  | c :: t => if c = '/' then cur.reverse :: segsAux t [] else segsAux t (c :: cur)

/-- Segments of a path string. -/
def pathSegs (s : String) : List (List Char) := segsAux s.data []

/-- Resolving one path segment against a directory depth relative to the
output directory: `..` ascends, `.` and empty segments stay, anything else
descends. -/
def segStep (d : Int) (seg : List Char) : Int :=
  if seg = ['.', '.'] then d - 1
  else if seg = ['.'] ∨ seg = [] then d
  else d + 1

/-- Fold step tracking the running depth and whether it ever went above
the output directory. -/
def insideFold (acc : Int × Bool) (seg : List Char) : Int × Bool :=
  (segStep acc.1 seg, acc.2 && decide (0 ≤ segStep acc.1 seg))

/-- `staysInside rel` holds when resolving `outputDir/rel` segment by
segment never ascends above `outputDir`, so the written file lands inside
the output directory. -/
def staysInside (rel : String) : Bool :=
  ((pathSegs rel).foldl insideFold (0, true)).2

/-- A two-page site: the seed links to `p1`, to itself (under a fragment,
already resolved away by `urljoin`/normalization in `parseHrefs`), and to
an out-of-scope host. -/
def envA : Env where
  base := "http://h/"
  maxPages := 2
  fetch := fun u =>
    if u = "http://h/" then some ⟨200, [104], some "utf-8"⟩
    else if u = "http://h/p1" then some ⟨200, [105], some "utf-8"⟩
    else none
  detect := fun _ => none
  decode := fun _ _ => some "page"
  decodeReplace := fun _ => "fallback"
  parseHrefs := fun u _ =>
    if u = "http://h/" then ["http://h/p1", "http://h/", "http://other/x"] else []

/-- Pop order for `envA` runs. -/
def selA : Finset String → String := selBy ["http://h/", "http://h/p1"]

/-- Like `envA` but without the self-link on the seed page. -/
def envB : Env where
  base := "http://h/"
  maxPages := 2
  fetch := fun u =>
    if u = "http://h/" then some ⟨200, [104], some "utf-8"⟩
    else if u = "http://h/p1" then some ⟨200, [105], some "utf-8"⟩
    else none
  detect := fun _ => none
  decode := fun _ _ => some "page"
  decodeReplace := fun _ => "fallback"
  parseHrefs := fun u _ => if u = "http://h/" then ["http://h/p1"] else []

/-- A three-page site whose page `p1` answers with status 500. -/
def env500 : Env where
  base := "http://h/"
  maxPages := 3
  fetch := fun u =>
    if u = "http://h/" then some ⟨200, [104], some "utf-8"⟩
    else if u = "http://h/p1" then some ⟨500, [], some "utf-8"⟩
    else if u = "http://h/p2" then some ⟨200, [105], some "utf-8"⟩
    else none
  detect := fun _ => none
  decode := fun _ _ => some "page"
  decodeReplace := fun _ => "fallback"
  parseHrefs := fun u _ =>
    if u = "http://h/" then ["http://h/p1", "http://h/p2"] else []

/-- Pop order for `env500` runs. -/
def sel500 : Finset String → String := selBy ["http://h/", "http://h/p1", "http://h/p2"]

/-- A site whose only fetch raises a network exception. -/
def envErr : Env where
  base := "http://h/"
  maxPages := 2
  fetch := fun _ => none
  detect := fun _ => none
  decode := fun _ _ => some "page"
  decodeReplace := fun _ => "fallback"
  parseHrefs := fun _ _ => []

/-- A site whose page bytes fail to decode under the resolved encoding. -/
def env8 : Env where
  base := "http://h/"
  maxPages := 2
  fetch := fun u => if u = "http://h/" then some ⟨200, [255], some "utf-8"⟩ else none
  detect := fun _ => none
  decode := fun _ _ => none
  decodeReplace := fun _ => "fallback"
  parseHrefs := fun u c =>
    if u = "http://h/" ∧ c = "fallback" then ["http://h/p1"] else []

/-! ### Theorems -/

theorem char_toNat_ofNat {n : Nat} (h : Nat.isValidChar n) :
    (Char.ofNat n).toNat = n := by
  simp only [Char.ofNat, dif_pos h, Char.ofNatAux, Char.toNat]
  simp [UInt32.toNat]

theorem toLower_toNat (c : Char) :
    (Char.toLower c).toNat = if 65 ≤ c.toNat ∧ c.toNat ≤ 90 then c.toNat + 32 else c.toNat := by
  unfold Char.toLower
  split
  · next h =>
    rw [if_pos h]
    exact char_toNat_ofNat (Or.inl (by omega))
  · next h => rw [if_neg h]

theorem toNat_inj_char {c d : Char} (h : c.toNat = d.toNat) : c = d :=
  Char.ext (UInt32.toNat.inj h)

theorem toLower_toLower (c : Char) : c.toLower.toLower = c.toLower := by
  apply toNat_inj_char
  rw [toLower_toNat, toLower_toNat]
  split
  · next h =>
    rw [if_neg (by omega)]
  · next h => rfl

theorem isAlpha_iff_toNat (c : Char) :
    c.isAlpha = true ↔ (65 ≤ c.toNat ∧ c.toNat ≤ 90) ∨ (97 ≤ c.toNat ∧ c.toNat ≤ 122) := by
  simp only [Char.isAlpha, Char.isUpper, Char.isLower, Bool.or_eq_true, Bool.and_eq_true,
    decide_eq_true_eq]
  constructor
  · rintro (⟨h1, h2⟩ | ⟨h1, h2⟩)
    · exact Or.inl ⟨h1, h2⟩
    · exact Or.inr ⟨h1, h2⟩
  · rintro (⟨h1, h2⟩ | ⟨h1, h2⟩)
    · exact Or.inl ⟨h1, h2⟩
    · exact Or.inr ⟨h1, h2⟩

theorem isAlpha_toLower {c : Char} (h : c.isAlpha = true) : c.toLower.isAlpha = true := by
  rw [isAlpha_iff_toNat] at h ⊢
  rw [toLower_toNat]
  rcases h with h | h
  · rw [if_pos (by omega)]; omega
  · rw [if_neg (by omega)]; omega

theorem isDigit_iff_toNat (c : Char) :
    c.isDigit = true ↔ 48 ≤ c.toNat ∧ c.toNat ≤ 57 := by
  simp only [Char.isDigit, Bool.and_eq_true, decide_eq_true_eq]
  constructor
  · rintro ⟨h1, h2⟩; exact ⟨h1, h2⟩
  · rintro ⟨h1, h2⟩; exact ⟨h1, h2⟩

theorem eq_iff_toNat (c d : Char) : c = d ↔ c.toNat = d.toNat :=
  ⟨fun h => h ▸ rfl, toNat_inj_char⟩

theorem isSchemeChar_toLower {c : Char} (h : isSchemeChar c = true) :
    isSchemeChar c.toLower = true := by
  simp only [isSchemeChar, Bool.or_eq_true] at h ⊢
  rcases h with (((ha | hd) | hp) | hm) | hdot
  · exact Or.inl (Or.inl (Or.inl (Or.inl (isAlpha_toLower ha))))
  · refine Or.inl (Or.inl (Or.inl (Or.inr ?_)))
    rw [isDigit_iff_toNat] at hd ⊢
    rw [toLower_toNat, if_neg (by omega)]
    exact hd
  · have hc := of_decide_eq_true hp
    subst hc
    decide
  · have hc := of_decide_eq_true hm
    subst hc
    decide
  · have hc := of_decide_eq_true hdot
    subst hc
    decide

theorem schemeChar_ne_colon {c : Char} (h : isSchemeChar c = true) : c ≠ ':' := by
  intro hc
  subst hc
  simp only [isSchemeChar, Bool.or_eq_true] at h
  rw [isAlpha_iff_toNat, isDigit_iff_toNat] at h
  rcases h with (((ha | hd) | hp) | hm) | hdot
  · have : (':').toNat = 58 := by decide
    omega
  · have : (':').toNat = 58 := by decide
    omega
  · exact absurd (of_decide_eq_true hp) (by decide)
  · exact absurd (of_decide_eq_true hm) (by decide)
  · exact absurd (of_decide_eq_true hdot) (by decide)

theorem crawlStep_card_le (env : Env) (s : CrawlState) (u : String) :
    (crawlStep env s u).visited.card ≤ s.visited.card + 1 := by
  unfold crawlStep
  split
  · exact Nat.le_succ_of_le (Nat.le_refl _)
  · exact Finset.card_insert_le _ _

theorem crawlLoop_card_le (env : Env) (sel : Finset String → String) (fuel : Nat)
    (s : CrawlState) (h : s.visited.card ≤ env.maxPages) :
    (crawlLoop env sel fuel s).visited.card ≤ env.maxPages := by
  induction fuel generalizing s with
  | zero => exact h
  | succ n ih =>
    unfold crawlLoop
    split
    · next hg =>
      apply ih
      have hstep := crawlStep_card_le env s (sel s.toVisit)
      omega
    · exact h

theorem crawlLoop_inv {P : CrawlState → Prop} (env : Env) (sel : Finset String → String)
    (hstep : ∀ s u, P s → P (crawlStep env s u)) :
    ∀ fuel s, P s → P (crawlLoop env sel fuel s) := by
  intro fuel
  induction fuel with
  | zero => exact fun _ h => h
  | succ n ih =>
    intro s h
    unfold crawlLoop
    split
    · exact ih _ (hstep _ _ h)
    · exact h

theorem extract_links_not_visited {base : String} {hrefs : List String}
    {visited L : Finset String} (h : extract_links base hrefs visited = .ok L) :
    ∀ n ∈ L, n ∉ visited := by
  induction hrefs generalizing L with
  | nil =>
    unfold extract_links at h
    injection h with h
    subst h
    intro n hn
    exact absurd hn (Finset.not_mem_empty n)
  | cons a t ih =>
    unfold extract_links at h
    cases hn : normalize_url a with
    | error e => rw [hn] at h; cases h
    | ok n =>
      rw [hn] at h
      cases hv : is_valid_url base a with
      | error e => rw [hv] at h; cases h
      | ok v =>
        rw [hv] at h
        cases hr : extract_links base t visited with
        | error e => rw [hr] at h; cases h
        | ok rest =>
          rw [hr] at h
          injection h with h
          subst h
          intro m hm
          split at hm
          · next hcond =>
            rcases Finset.mem_insert.mp hm with rfl | hm
            · exact hcond.2
            · exact ih hr m hm
          · exact ih hr m hm

theorem extract_links_isOk_indep (base : String) (hrefs : List String)
    (v w : Finset String) :
    (extract_links base hrefs v).isOk = (extract_links base hrefs w).isOk := by
  induction hrefs with
  | nil => rfl
  | cons a t ih =>
    unfold extract_links
    cases normalize_url a with
    | error e => rfl
    | ok n =>
      cases is_valid_url base a with
      | error e => rfl
      | ok b =>
        cases hv : extract_links base t v with
        | error e =>
          cases hw : extract_links base t w with
          | error f => rfl
          | ok rest => rw [hv, hw] at ih; cases ih
        | ok rest =>
          cases hw : extract_links base t w with
          | error f => rw [hv, hw] at ih; cases ih
          | ok rest2 => rfl

theorem processURL_slept_indep (env : Env) (v : Finset String) (u : String) :
    (processURL env v u).slept = (processURL env ∅ u).slept := by
  cases hf : env.fetch u with
  | none => simp only [processURL, hf]
  | some r =>
    simp only [processURL, hf]
    by_cases hs : r.status = 200
    · rw [if_pos hs, if_pos hs]
      cases hsave : save_path u with
      | error e => simp only [handlePage, hsave]
      | ok p =>
        simp only [handlePage, hsave]
        have hok := extract_links_isOk_indep env.base
          (env.parseHrefs u (pageContent env r)) v ∅
        cases hv : extract_links env.base (env.parseHrefs u (pageContent env r)) v with
        | error e =>
          cases hw : extract_links env.base (env.parseHrefs u (pageContent env r)) ∅ with
          | error f => simp only [hv, hw]
          | ok rest => rw [hv, hw] at hok; simp [Except.isOk, Except.toBool] at hok
        | ok rest =>
          cases hw : extract_links env.base (env.parseHrefs u (pageContent env r)) ∅ with
          | error f => rw [hv, hw] at hok; simp [Except.isOk, Except.toBool] at hok
          | ok rest2 => simp only [hv, hw]
    · rw [if_neg hs, if_neg hs]

theorem processURL_newLinks_not_visited (env : Env) (v : Finset String) (u : String) :
    ∀ n ∈ (processURL env v u).newLinks, n ∉ v := by
  cases hf : env.fetch u with
  | none => simp only [processURL, hf]; intro n hn; exact absurd hn (Finset.not_mem_empty n)
  | some r =>
    simp only [processURL, hf]
    split
    · cases hsave : save_path u with
      | error e =>
        simp only [handlePage, hsave]
        intro n hn; exact absurd hn (Finset.not_mem_empty n)
      | ok p =>
        simp only [handlePage, hsave]
        cases he : extract_links env.base (env.parseHrefs u (pageContent env r)) v with
        | error e =>
          simp only [he]
          intro n hn; exact absurd hn (Finset.not_mem_empty n)
        | ok links =>
          simp only [he]
          exact extract_links_not_visited he
    · intro n hn; exact absurd hn (Finset.not_mem_empty n)

theorem crawlLoop_succ_of_guard (env : Env) (sel : Finset String → String) (fuel : Nat)
    (s : CrawlState) (h1 : s.toVisit.Nonempty) (h2 : s.visited.card < env.maxPages) :
    crawlLoop env sel (fuel + 1) s = crawlLoop env sel fuel (crawlStep env s (sel s.toVisit)) := by
  rw [show crawlLoop env sel (fuel + 1) s =
    if s.toVisit.Nonempty ∧ s.visited.card < env.maxPages then
      crawlLoop env sel fuel (crawlStep env s (sel s.toVisit))
    else s from rfl]
  rw [if_pos ⟨h1, h2⟩]

theorem dropWhile_eq_nil_of_all {α : Type} {p : α → Bool} {l : List α}
    (h : ∀ x ∈ l, p x = true) : l.dropWhile p = [] := by
  induction l with
  | nil => rfl
  | cons a t ih =>
    rw [List.dropWhile_cons_of_pos (h a (List.mem_cons_self a t))]
    exact ih fun x hx => h x (List.mem_cons_of_mem a hx)

theorem dropWhile_shape {α : Type} (p : α → Bool) (l : List α) :
    l.dropWhile p = [] ∨ ∃ c t, l.dropWhile p = c :: t ∧ p c = false := by
  induction l with
  | nil => exact Or.inl rfl
  | cons a t ih =>
    by_cases hp : p a = true
    · rw [List.dropWhile_cons_of_pos hp]; exact ih
    · exact Or.inr ⟨a, t, List.dropWhile_cons_of_neg hp, by simpa using hp⟩

theorem lastSeg_subset {x : Char} {p : List Char} (h : x ∈ lastSeg p) : x ∈ p := by
  unfold lastSeg at h
  rw [List.mem_reverse] at h
  have hx := List.Sublist.subset (List.takeWhile_sublist _) h
  rwa [List.mem_reverse] at hx

theorem lastSeg_no_slash (p : List Char) : '/' ∉ lastSeg p := by
  intro h
  unfold lastSeg at h
  rw [List.mem_reverse] at h
  have hx := List.mem_takeWhile_imp h
  simp at hx

theorem lastSeg_of_no_slash {p : List Char} (h : '/' ∉ p) : lastSeg p = p := by
  unfold lastSeg
  rw [List.takeWhile_eq_self_iff.mpr, List.reverse_reverse]
  intro x hx
  rw [List.mem_reverse] at hx
  simp only [ne_eq, decide_eq_true_eq]
  rintro rfl
  exact h hx

theorem lastSeg_append_decomp (p : List Char) :
    (p.reverse.dropWhile (fun c => c ≠ '/')).reverse ++ lastSeg p = p := by
  unfold lastSeg
  rw [← List.reverse_append, List.takeWhile_append_dropWhile, List.reverse_reverse]

theorem take_sub_lastSeg (p : List Char) :
    p.take (p.length - (lastSeg p).length) = (p.reverse.dropWhile (fun c => c ≠ '/')).reverse := by
  have hp := lastSeg_append_decomp p
  have hlen : ((p.reverse.dropWhile (fun c => c ≠ '/')).reverse).length =
      p.length - (lastSeg p).length := by
    have := congrArg List.length hp
    simp only [List.length_append] at this
    omega
  have htake := @List.take_left' Char _ (lastSeg p) _ hlen
  rwa [hp] at htake

theorem dropRev_slash_head {p : List Char} (h : '/' ∈ p) :
    ∃ t, p.reverse.dropWhile (fun c => c ≠ '/') = '/' :: t := by
  rcases dropWhile_shape (fun c => (c ≠ '/' : Bool)) p.reverse with hnil | ⟨c, t, ht, hc⟩
  · exfalso
    have hall : p.reverse.takeWhile (fun c => c ≠ '/') = p.reverse := by
      have := List.takeWhile_append_dropWhile (fun c => (c ≠ '/' : Bool)) p.reverse
      rw [hnil, List.append_nil] at this
      exact this
    have hmem : ('/' : Char) ∈ p.reverse.takeWhile (fun c => c ≠ '/') := by
      rw [hall, List.mem_reverse]; exact h
    have := List.mem_takeWhile_imp hmem
    simp at this
  · have hcs : c = '/' := by simpa using hc
    exact ⟨t, by rw [ht, hcs]⟩

theorem lastSeg_length_lt {p : List Char} (h : '/' ∈ p) :
    (lastSeg p).length < p.length := by
  have hp := lastSeg_append_decomp p
  rcases dropRev_slash_head h with ⟨t, ht⟩
  have := congrArg List.length hp
  simp only [List.length_append, List.length_reverse, ht, List.length_cons] at this
  omega

theorem mem_lastSeg_of_no_slash {p : List Char} (hs : ';' ∈ p) (hn : '/' ∉ p) :
    ';' ∈ lastSeg p := by
  rwa [lastSeg_of_no_slash hn]

theorem splitTail_path_no_hash (u : List Char) : '#' ∉ (splitTail u).1 := by
  intro h
  have h2 := List.Sublist.subset (List.takeWhile_sublist _) h
  have h3 := List.mem_takeWhile_imp h2
  simp at h3

theorem splitTail_path_no_query (u : List Char) : '?' ∉ (splitTail u).1 := by
  intro h
  have h1 := List.mem_takeWhile_imp h
  simp at h1

theorem splitTail_of_clean {p : List Char} (h1 : '#' ∉ p) (h2 : '?' ∉ p) :
    splitTail p = (p, [], []) := by
  have hhash : ∀ x ∈ p, (x ≠ '#' : Bool) = true := by
    intro x hx
    simp only [ne_eq, decide_eq_true_eq]
    rintro rfl
    exact h1 hx
  have htake : p.takeWhile (fun c => c ≠ '#') = p := List.takeWhile_eq_self_iff.mpr hhash
  have hquery : ∀ x ∈ p, (x ≠ '?' : Bool) = true := by
    intro x hx
    simp only [ne_eq, decide_eq_true_eq]
    rintro rfl
    exact h2 hx
  unfold splitTail
  rw [htake, dropWhile_eq_nil_of_all hhash,
    List.takeWhile_eq_self_iff.mpr hquery, dropWhile_eq_nil_of_all hquery]
  rfl

theorem splitTail_path_shape {u : List Char}
    (hu : u = [] ∨ ∃ c t, u = c :: t ∧ isNetlocEnd c = true) :
    (splitTail u).1 = [] ∨ ∃ t, (splitTail u).1 = '/' :: t := by
  rcases hu with rfl | ⟨c, t, rfl, hc⟩
  · exact Or.inl rfl
  · simp only [isNetlocEnd, Bool.or_eq_true, decide_eq_true_eq] at hc
    unfold splitTail
    rcases hc with (rfl | rfl) | rfl
    · right
      refine ⟨(t.takeWhile (fun c => c ≠ '#')).takeWhile (fun c => c ≠ '?'), ?_⟩
      rw [List.takeWhile_cons_of_pos (p := fun c => (c ≠ '#' : Bool)) (by decide),
        List.takeWhile_cons_of_pos (p := fun c => (c ≠ '?' : Bool)) (by decide)]
    · left
      rw [List.takeWhile_cons_of_pos (p := fun c => (c ≠ '#' : Bool)) (by decide),
        List.takeWhile_cons_of_neg (p := fun c => (c ≠ '?' : Bool)) (by decide)]
    · left
      rw [List.takeWhile_cons_of_neg (p := fun c => (c ≠ '#' : Bool)) (by decide)]
      rfl

theorem splitScheme_fst (cs : List Char) :
    (splitScheme cs).1 = [] ∨
    ∃ c0 t, (splitScheme cs).1 = (c0 :: t).map Char.toLower ∧ c0.isAlpha = true ∧
      (c0 :: t).all isSchemeChar = true := by
  unfold splitScheme
  cases hd : cs.dropWhile (fun c => c ≠ ':') with
  | nil => exact Or.inl rfl
  | cons d rest =>
    cases ht : cs.takeWhile (fun c => c ≠ ':') with
    | nil => exact Or.inl rfl
    | cons c0 pre =>
      dsimp only
      split
      · next hc =>
        simp only [Bool.and_eq_true] at hc
        exact Or.inr ⟨c0, pre, rfl, hc.1, hc.2⟩
      · exact Or.inl rfl

theorem splitScheme_reparse {s rest : List Char} (hne : s ≠ [])
    (hcolon : ':' ∉ s) (halpha : ∀ c0 t, s = c0 :: t → c0.isAlpha = true)
    (hall : s.all isSchemeChar = true) (hlow : s.map Char.toLower = s) :
    splitScheme (s ++ ':' :: rest) = (s, rest) := by
  have hsall : ∀ x ∈ s, (x ≠ ':' : Bool) = true := by
    intro x hx
    simp only [ne_eq, decide_eq_true_eq]
    rintro rfl
    exact hcolon hx
  have hdrop : (s ++ ':' :: rest).dropWhile (fun c => c ≠ ':') = ':' :: rest := by
    rw [List.dropWhile_append_of_pos hsall,
      List.dropWhile_cons_of_neg (p := fun c => (c ≠ ':' : Bool)) (by decide)]
  have htake : (s ++ ':' :: rest).takeWhile (fun c => c ≠ ':') = s := by
    rw [List.takeWhile_append_of_pos hsall,
      List.takeWhile_cons_of_neg (p := fun c => (c ≠ ':' : Bool)) (by decide), List.append_nil]
  unfold splitScheme
  rw [hdrop, htake]
  cases s with
  | nil => exact absurd rfl hne
  | cons c0 t =>
    dsimp only
    rw [if_pos (by rw [Bool.and_eq_true]; exact ⟨halpha c0 t rfl, hall⟩)]
    rw [show (c0 :: t).map Char.toLower = c0 :: t from hlow]

theorem lastSeg_append_final {A seg : List Char} (hA : ∃ t, A = t ++ ['/'])
    (hseg : '/' ∉ seg) : lastSeg (A ++ seg) = seg := by
  rcases hA with ⟨t, rfl⟩
  have hsegall : ∀ x ∈ seg.reverse, (x ≠ '/' : Bool) = true := by
    intro x hx
    rw [List.mem_reverse] at hx
    simp only [ne_eq, decide_eq_true_eq]
    rintro rfl
    exact hseg hx
  unfold lastSeg
  simp only [List.reverse_append, List.reverse_cons, List.reverse_nil, List.nil_append,
    List.singleton_append, List.append_assoc]
  rw [List.takeWhile_append_of_pos hsegall,
    List.takeWhile_cons_of_neg (p := fun c => (c ≠ '/' : Bool)) (by decide),
    List.append_nil, List.reverse_reverse]

theorem splitparams_id {p : List Char} (h1 : '/' ∈ p) (h2 : ';' ∉ lastSeg p) :
    splitparamsL p = (p, []) := by
  unfold splitparamsL
  rw [if_pos h1, if_neg h2]

theorem splitparams_fst_subset {x : Char} {p : List Char}
    (h : x ∈ (splitparamsL p).1) : x ∈ p := by
  unfold splitparamsL at h
  split at h
  · split at h
    · rcases List.mem_append.mp h with h | h
      · exact List.take_subset _ _ h
      · exact lastSeg_subset (List.Sublist.subset (List.takeWhile_sublist _) h)
    · exact h
  · exact List.Sublist.subset (List.takeWhile_sublist _) h

theorem splitparams_fst_shape {p : List Char} (hp : p = [] ∨ ∃ t, p = '/' :: t) :
    (splitparamsL p).1 = [] ∨ ∃ t, (splitparamsL p).1 = '/' :: t := by
  rcases hp with rfl | ⟨t, rfl⟩
  · exact Or.inl rfl
  · have hmem : '/' ∈ ('/' :: t) := List.mem_cons_self _ _
    unfold splitparamsL
    rw [if_pos hmem]
    split
    · right
      have hlt := lastSeg_length_lt hmem
      have hk : ('/' :: t).length - (lastSeg ('/' :: t)).length =
          (('/' :: t).length - (lastSeg ('/' :: t)).length - 1) + 1 := by omega
      dsimp only
      rw [hk, List.take_succ_cons]
      exact ⟨_, rfl⟩
    · exact Or.inr ⟨t, rfl⟩

theorem splitparams_fst_lastSeg {p : List Char} (hs : '/' ∈ p) (hseg : ';' ∈ lastSeg p) :
    ';' ∉ lastSeg (splitparamsL p).1 := by
  unfold splitparamsL
  rw [if_pos hs, if_pos hseg]
  dsimp only
  rw [take_sub_lastSeg]
  rcases dropRev_slash_head hs with ⟨t, ht⟩
  rw [ht]
  have hrev : ('/' :: t).reverse = t.reverse ++ ['/'] := List.reverse_cons _ _
  rw [lastSeg_append_final ⟨t.reverse, hrev⟩ ?hns]
  case hns =>
    intro hmem
    have h2 := List.mem_takeWhile_imp hmem
    exact lastSeg_no_slash p (List.Sublist.subset (List.takeWhile_sublist _) hmem)
  intro hmem
  have h2 := List.mem_takeWhile_imp hmem
  simp at h2

/-- The invariants of a successful `urlsplit` that the idempotence proof
needs: scheme shape, netloc free of `/ ? #` with balanced brackets, path
free of `? #` and starting with `/` (or empty) whenever a netloc was
split off. -/
theorem urlsplitL_ok_inv {cs s n p q f : List Char}
    (h : urlsplitL cs = .ok (s, n, p, q, f)) :
    (s = [] ∨ ∃ c0 t, s = (c0 :: t).map Char.toLower ∧ c0.isAlpha = true ∧
       (c0 :: t).all isSchemeChar = true) ∧
    (∀ c ∈ n, isNetlocEnd c = false) ∧
    (('[' ∈ n) ↔ (']' ∈ n)) ∧
    '#' ∉ p ∧ '?' ∉ p ∧
    (n ≠ [] → (p = [] ∨ ∃ t, p = '/' :: t)) := by
  have hscheme := splitScheme_fst cs
  unfold urlsplitL at h
  split at h
  · split at h
    · next hbr =>
      injection h with h
      injection h with h1 h
      injection h with h2 h
      injection h with h3 h
      injection h with h4 h5
      subst h1; subst h2; subst h3
      refine ⟨hscheme, ?_, hbr, ?_, ?_, ?_⟩
      · intro c hc
        have := List.mem_takeWhile_imp hc
        simpa using this
      · exact splitTail_path_no_hash _
      · exact splitTail_path_no_query _
      · intro _
        apply splitTail_path_shape
        rcases dropWhile_shape (fun c => !(isNetlocEnd c)) ((splitScheme cs).2.drop 2) with
          hnil | ⟨c, t, hct, hc⟩
        · exact Or.inl hnil
        · right
          exact ⟨c, t, hct, by simpa using hc⟩
    · cases h
  · injection h with h
    injection h with h1 h
    injection h with h2 h
    injection h with h3 h
    injection h with h4 h5
    subst h1; subst h2; subst h3
    refine ⟨hscheme, ?_, ?_, ?_, ?_, ?_⟩
    · intro c hc
      exact absurd hc (List.not_mem_nil c)
    · constructor <;> (intro hc; exact absurd hc (List.not_mem_nil _))
    · exact splitTail_path_no_hash _
    · exact splitTail_path_no_query _
    · intro hn
      exact absurd rfl hn

theorem map_toLower_idem (l : List Char) :
    (l.map Char.toLower).map Char.toLower = l.map Char.toLower := by
  induction l with
  | nil => rfl
  | cons a t ih => simp only [List.map_cons, toLower_toLower, ih]

theorem splitparams_lastSeg_clean {p : List Char} (_hsemi : ';' ∈ p) :
    ';' ∉ lastSeg (splitparamsL p).1 := by
  by_cases hs : '/' ∈ p
  · by_cases hseg : ';' ∈ lastSeg p
    · exact splitparams_fst_lastSeg hs hseg
    · rw [splitparams_id hs hseg]; exact hseg
  · unfold splitparamsL
    rw [if_neg hs]
    dsimp only
    have hnoslash : '/' ∉ p.takeWhile (fun c => c ≠ ';') := fun hmem =>
      hs (List.Sublist.subset (List.takeWhile_sublist _) hmem)
    rw [lastSeg_of_no_slash hnoslash]
    intro hmem
    have h2 := List.mem_takeWhile_imp hmem
    simp at h2

/-- The facts about a successful `urlparse` needed for idempotence. -/
theorem urlparseL_ok_inv {cs : List Char} {r : URLParts} (h : urlparseL cs = .ok r) :
    (r.scheme = [] ∨ ∃ c0 t, r.scheme = (c0 :: t).map Char.toLower ∧ c0.isAlpha = true ∧
       (c0 :: t).all isSchemeChar = true) ∧
    (∀ c ∈ r.netloc, isNetlocEnd c = false) ∧
    (('[' ∈ r.netloc) ↔ (']' ∈ r.netloc)) ∧
    '#' ∉ r.path ∧ '?' ∉ r.path ∧
    (r.netloc ≠ [] → (r.path = [] ∨ ∃ t, r.path = '/' :: t)) ∧
    (r.scheme ∈ usesParams → ';' ∉ lastSeg r.path) := by
  unfold urlparseL at h
  split at h
  · cases h
  · next s n p q f heq =>
    obtain ⟨hsch, hnet, hbr, hhash, hquery, hshape⟩ := urlsplitL_ok_inv heq
    split at h
    · next hg =>
      injection h with h
      subst h
      refine ⟨hsch, hnet, hbr, ?_, ?_, ?_, ?_⟩
      · intro hmem
        exact hhash (splitparams_fst_subset hmem)
      · intro hmem
        exact hquery (splitparams_fst_subset hmem)
      · intro hne
        exact splitparams_fst_shape (hshape hne)
      · intro _
        exact splitparams_lastSeg_clean hg.2
    · next hg =>
      injection h with h
      subst h
      refine ⟨hsch, hnet, hbr, hhash, hquery, hshape, ?_⟩
      · intro hus hmem
        exact hg ⟨hus, lastSeg_subset hmem⟩

theorem scheme_facts {s : List Char}
    (hs : s = [] ∨ ∃ c0 t, s = (c0 :: t).map Char.toLower ∧ c0.isAlpha = true ∧
       (c0 :: t).all isSchemeChar = true) (hne : s ≠ []) :
    ':' ∉ s ∧ (∀ c0 t, s = c0 :: t → c0.isAlpha = true) ∧
    s.all isSchemeChar = true ∧ s.map Char.toLower = s := by
  rcases hs with rfl | ⟨c0, t, rfl, halpha, hall⟩
  · exact absurd rfl hne
  · refine ⟨?_, ?_, ?_, map_toLower_idem _⟩
    · intro hmem
      rw [List.mem_map] at hmem
      obtain ⟨c, hc, hlowc⟩ := hmem
      have hsc : isSchemeChar c = true := by
        rw [List.all_eq_true] at hall
        exact hall c hc
      have hsc2 := isSchemeChar_toLower hsc
      rw [hlowc] at hsc2
      exact schemeChar_ne_colon hsc2 rfl
    · intro d0 dt hdt
      rw [List.map_cons] at hdt
      injection hdt with h1 _
      subst h1
      exact isAlpha_toLower halpha
    · rw [List.all_eq_true] at hall ⊢
      intro x hx
      rw [List.mem_map] at hx
      obtain ⟨c, hc, rfl⟩ := hx
      exact isSchemeChar_toLower (hall c hc)

/-- Re-parsing the normalized form of a successfully parsed URL with a
nonempty scheme and netloc recovers exactly the scheme, netloc and path,
with empty params, query and fragment — the heart of idempotence. -/
theorem urlparseL_reparse {cs : List Char} {r : URLParts}
    (h : urlparseL cs = .ok r) (hs : r.scheme ≠ []) (hn : r.netloc ≠ []) :
    urlparseL (normalizedL r) = .ok ⟨r.scheme, r.netloc, r.path, [], [], []⟩ := by
  obtain ⟨hsch, hnet, hbr, hhash, hquery, hshape, hparams⟩ := urlparseL_ok_inv h
  obtain ⟨hcolon, halpha, hall, hlow⟩ := scheme_facts hsch hs
  have hsplit : splitScheme (normalizedL r) = (r.scheme, '/' :: '/' :: (r.netloc ++ r.path)) :=
    splitScheme_reparse hs hcolon halpha hall hlow
  have hnetall : ∀ x ∈ r.netloc, (!(isNetlocEnd x)) = true := by
    intro x hx
    rw [Bool.not_eq_true']
    exact hnet x hx
  have hpathtake : (r.netloc ++ r.path).takeWhile (fun c => !(isNetlocEnd c)) = r.netloc := by
    rw [List.takeWhile_append_of_pos hnetall]
    rcases hshape hn with hpe | ⟨t, hpt⟩
    · rw [hpe, List.takeWhile_nil, List.append_nil]
    · rw [hpt, List.takeWhile_cons_of_neg (p := fun c => !(isNetlocEnd c)) (by decide),
        List.append_nil]
  have hpathdrop : (r.netloc ++ r.path).dropWhile (fun c => !(isNetlocEnd c)) = r.path := by
    rw [List.dropWhile_append_of_pos hnetall]
    rcases hshape hn with hpe | ⟨t, hpt⟩
    · rw [hpe, List.dropWhile_nil]
    · rw [hpt, List.dropWhile_cons_of_neg (p := fun c => !(isNetlocEnd c)) (by decide)]
  have htk : ('/' :: '/' :: (r.netloc ++ r.path)).take 2 = ['/', '/'] := rfl
  have hdp : ('/' :: '/' :: (r.netloc ++ r.path)).drop 2 = r.netloc ++ r.path := rfl
  have hsplitL : urlsplitL (normalizedL r) = .ok (r.scheme, r.netloc, r.path, [], []) := by
    unfold urlsplitL
    rw [hsplit]
    dsimp only
    rw [htk, if_pos rfl, hdp, hpathtake, hpathdrop, if_pos hbr,
      splitTail_of_clean hhash hquery]
  unfold urlparseL
  rw [hsplitL]
  dsimp only
  by_cases hg : r.scheme ∈ usesParams ∧ ';' ∈ r.path
  · rw [if_pos hg]
    have hls : ';' ∉ lastSeg r.path := hparams hg.1
    have hsl : '/' ∈ r.path := by
      by_contra hns
      exact hls (mem_lastSeg_of_no_slash hg.2 hns)
    rw [splitparams_id hsl hls]
  · rw [if_neg hg]

theorem insideFold_no_dotdot (l : List (List Char)) :
    ∀ d : Int, 0 ≤ d → ['.', '.'] ∉ l →
      0 ≤ (l.foldl insideFold (d, true)).1 ∧ (l.foldl insideFold (d, true)).2 = true := by
  induction l with
  | nil => intro d hd _; exact ⟨hd, rfl⟩
  | cons seg t ih =>
    intro d hd hmem
    have hseg : seg ≠ ['.', '.'] := fun hc => hmem (hc ▸ List.mem_cons_self seg t)
    have hstep : 0 ≤ segStep d seg := by
      unfold segStep
      rw [if_neg hseg]
      split
      · exact hd
      · omega
    have hfold : insideFold (d, true) seg = (segStep d seg, true) := by
      unfold insideFold
      rw [decide_eq_true hstep, Bool.and_true]
    rw [List.foldl_cons, hfold]
    exact ih (segStep d seg) hstep fun hc => hmem (List.mem_cons_of_mem seg hc)

/-- Claim C3: the path mapping of `save_page` is deterministic and applies
exactly the spec's rules in order to the URL's path (stripped of leading
slashes, as the spec's own examples fix): empty path to `index.html`,
trailing `/` appends `index.html`, a final segment without `.` appends
`.html`, anything else verbatim; and the four spec examples map as stated. -/
theorem c3_path_mapper :
    (∀ p : String, mapPath p = specPathMap (stripSlashes p)) ∧
    mapPath "" = "index.html" ∧ mapPath "/a/" = "a/index.html" ∧
    mapPath "/a/b" = "a/b.html" ∧ mapPath "/a/b.png" = "a/b.png" ∧
    (∀ url r, urlparseL url.data = .ok r → save_path url = .ok (mapPath ⟨r.path⟩)) := by
  refine ⟨?_, by decide, by decide, by decide, by decide, ?_⟩
  · intro p
    unfold mapPath specPathMap
    by_cases h1 : stripSlashes p = ""
    · rw [if_pos h1, if_pos h1]
    · rw [if_neg h1, if_neg h1]
      by_cases h2 : (stripSlashes p).data.getLast? = some '/'
      · rw [if_pos h2, if_pos h2]
        unfold osJoin
        rw [if_neg (by decide), if_pos (Or.inr h2)]
      · rw [if_neg h2, if_neg h2]
        by_cases h3 : '.' ∈ (osBasename (stripSlashes p)).data
        · rw [if_neg (by simp [h3]), if_neg (by simp [h3])]
        · rw [if_pos (by simp [h3]), if_pos (by simp [h3])]
  · intro url r h
    unfold save_path
    rw [h]

theorem c3_witness :
    urlparseL "http://h/a/b".data = .ok ⟨"http".data, "h".data, "/a/b".data, [], [], []⟩ ∧
    save_path "http://h/a/b" = .ok (mapPath ⟨"/a/b".data⟩) := by
  refine ⟨by decide, ?_⟩
  exact c3_path_mapper.2.2.2.2.2 "http://h/a/b" ⟨"http".data, "h".data, "/a/b".data, [], [], []⟩
    (by decide)

/-- Claim C4 (amended): whenever `urlparse` succeeds on both URLs,
`is_valid_url` returns exactly the boolean
`netloc(url) == netloc(base) and scheme(url) in {http, https}`; but a parse
failure of the candidate URL propagates as a `ValueError` instead of
returning false, so the filter is not fail-closed. -/
theorem c4_is_valid_url_amended :
    (∀ base url pu pb, urlparseL url.data = .ok pu → urlparseL base.data = .ok pb →
      is_valid_url base url = .ok (pu.netloc == pb.netloc &&
        (pu.scheme == "http".data || pu.scheme == "https".data))) ∧
    (∀ base url e, urlparseL url.data = .error e → is_valid_url base url = .error e) := by
  constructor
  · intro base url pu pb hu hb
    unfold is_valid_url
    rw [hu, hb]
  · intro base url e hu
    unfold is_valid_url
    rw [hu]

theorem c4_witness :
    urlparseL "https://h/x".data = .ok ⟨"https".data, "h".data, "/x".data, [], [], []⟩ ∧
    urlparseL "http://h/".data = .ok ⟨"http".data, "h".data, "/".data, [], [], []⟩ ∧
    is_valid_url "http://h/" "https://h/x" = .ok true := by
  refine ⟨by decide, by decide, ?_⟩
  have h := c4_is_valid_url_amended.1 "http://h/" "https://h/x"
    ⟨"https".data, "h".data, "/x".data, [], [], []⟩
    ⟨"http".data, "h".data, "/".data, [], [], []⟩ (by decide) (by decide)
  exact h.trans (by decide)

/-- Counterexample to claim C4 as stated: on the malformed URL `http://[`
the filter raises the `Invalid IPv6 URL` `ValueError` from `urlparse`
instead of returning a boolean. -/
theorem c4_counterexample :
    is_valid_url "http://example.com/" "http://[" = .error "Invalid IPv6 URL" ∧
    (is_valid_url "http://example.com/" "http://[").isOk = false := by
  exact ⟨by decide, by decide⟩

/-- Claim C5 (amended): the normalized form is exactly
`scheme + "://" + netloc + path` (no query, no fragment), and
normalization is idempotent on every URL whose parse yields a nonempty
scheme and a nonempty host.  (For scheme-less inputs it is not: see the
counterexample.) -/
theorem c5_normalize_idempotent (u v : String) (r : URLParts)
    (h : urlparseL u.data = .ok r) (hs : r.scheme ≠ []) (hn : r.netloc ≠ [])
    (hv : normalize_url u = .ok v) :
    v = ⟨normalizedL r⟩ ∧ normalize_url v = .ok v := by
  have h1 : normalize_url u = .ok ⟨normalizedL r⟩ := by
    unfold normalize_url
    rw [h]
    rfl
  rw [h1] at hv
  injection hv with hv
  subst hv
  refine ⟨rfl, ?_⟩
  have hrep := urlparseL_reparse h hs hn
  unfold normalize_url
  rw [show (⟨normalizedL r⟩ : String).data = normalizedL r from rfl, hrep]
  rfl

theorem c5_witness :
    urlparseL "HTTP://h/a?q#f".data =
      .ok ⟨"http".data, "h".data, "/a".data, [], "q".data, "f".data⟩ ∧
    normalize_url "HTTP://h/a?q#f" = .ok "http://h/a" ∧
    ("http://h/a" : String) =
      ⟨normalizedL ⟨"http".data, "h".data, "/a".data, [], "q".data, "f".data⟩⟩ ∧
    normalize_url "http://h/a" = .ok "http://h/a" := by
  have h := c5_normalize_idempotent "HTTP://h/a?q#f" "http://h/a"
    ⟨"http".data, "h".data, "/a".data, [], "q".data, "f".data⟩
    (by decide) (by decide) (by decide) (by decide)
  exact ⟨by decide, by decide, h.1, h.2⟩

/-- Counterexample to claim C5 as stated: on the input `""` (empty scheme)
normalization is not idempotent: it yields `"://"` whose normalization is
`"://://"`. -/
theorem c5_counterexample :
    normalize_url "" = .ok "://" ∧ normalize_url "://" = .ok "://://" ∧
    normalize_url "://" ≠ .ok "://" := by
  exact ⟨by decide, by decide, by decide⟩

/-- Claim C8: when decoding the body under the resolved encoding fails
(`decode` returns `none`, the model of `UnicodeDecodeError`), the content
is re-decoded exactly once with the total utf-8 lossy fallback, and the
200-branch proceeds with that fallback content exactly as with any other
content: the page is saved, parsed and mined for links, and the decode
failure itself never reaches the error path. -/
theorem c8_decode_fallback (env : Env) (v : Finset String) (u : String) (r : Response)
    (hf : env.fetch u = some r) (hs : r.status = 200)
    (hd : env.decode (resolvedEncoding env r) r.body = none) :
    pageContent env r = env.decodeReplace r.body ∧
    processURL env v u = handlePage env v u (env.decodeReplace r.body) := by
  have h1 : pageContent env r = env.decodeReplace r.body := by
    unfold pageContent
    rw [hd]
  refine ⟨h1, ?_⟩
  simp only [processURL, hf]
  rw [if_pos hs, h1]

theorem c8_witness :
    env8.fetch "http://h/" = some ⟨200, [255], some "utf-8"⟩ ∧
    env8.decode (resolvedEncoding env8 ⟨200, [255], some "utf-8"⟩) [255] = none ∧
    pageContent env8 ⟨200, [255], some "utf-8"⟩ = env8.decodeReplace [255] ∧
    processURL env8 ∅ "http://h/" = handlePage env8 ∅ "http://h/" (env8.decodeReplace [255]) ∧
    processURL env8 ∅ "http://h/" =
      ⟨{"http://h/p1"}, some "index.html", false, true⟩ := by
  have h := c8_decode_fallback env8 ∅ "http://h/" ⟨200, [255], some "utf-8"⟩
    (by decide) (by decide) (by decide)
  exact ⟨by decide, by decide, h.1, h.2, by decide⟩

/-- Claim C10 (amended): the relative path computed by the path mapper is
never absolute (so `os.path.join` keeps the output directory), and for
every URL path whose mapped file path contains no `..` segment the write
stays inside the output directory.  A `..` segment in the URL path does
escape: see the counterexample. -/
theorem c10_path_containment :
    (∀ p : String, (mapPath p).data.take 1 ≠ ['/']) ∧
    (∀ p : String, ['.', '.'] ∉ pathSegs (mapPath p) → staysInside (mapPath p) = true) := by
  constructor
  · intro p
    unfold mapPath
    rcases dropWhile_shape (fun c => c = '/') p.data with hnil | ⟨c, t, hct, hc⟩
    · have hq : stripSlashes p = "" := by
        unfold stripSlashes
        rw [hnil]
      rw [if_pos hq]
      decide
    · have hq : (stripSlashes p).data = c :: t := by
        unfold stripSlashes
        rw [hct]
      have hne : ¬ stripSlashes p = "" := by
        intro hx
        rw [hx] at hq
        cases hq
      rw [if_neg hne]
      have hchead : c ≠ '/' := by simpa using hc
      by_cases h2 : (stripSlashes p).data.getLast? = some '/'
      · rw [if_pos h2]
        unfold osJoin
        rw [if_neg (by decide), if_pos (Or.inr h2), String.data_append, hq]
        intro hcontra
        have h3 : ((c :: t) ++ "index.html".data).take 1 = [c] := rfl
        rw [h3] at hcontra
        injection hcontra with h4 _
        exact hchead h4
      · rw [if_neg h2]
        by_cases h3 : (!((osBasename (stripSlashes p)).data.contains '.')) = true
        · rw [if_pos h3, String.data_append, hq]
          intro hcontra
          have h4 : ((c :: t) ++ ".html".data).take 1 = [c] := rfl
          rw [h4] at hcontra
          injection hcontra with h5 _
          exact hchead h5
        · rw [if_neg h3, hq]
          intro hcontra
          have h4 : (c :: t).take 1 = [c] := rfl
          rw [h4] at hcontra
          injection hcontra with h5 _
          exact hchead h5
  · intro p hmem
    unfold staysInside
    exact (insideFold_no_dotdot (pathSegs (mapPath p)) 0 (le_refl 0) hmem).2

theorem c10_witness :
    (mapPath "/a/b").data.take 1 ≠ ['/'] ∧
    ['.', '.'] ∉ pathSegs (mapPath "/a/b") ∧ staysInside (mapPath "/a/b") = true := by
  refine ⟨c10_path_containment.1 "/a/b", by decide,
    c10_path_containment.2 "/a/b" (by decide)⟩

/-- Counterexample to claim C10 as stated: `http://h/../secret` is
in-scope for base `http://h/`, is its own normal form (so it is enqueued
verbatim), and `save_page` maps it to `../secret.html`, which resolves
outside the output directory. -/
theorem c10_counterexample :
    is_valid_url "http://h/" "http://h/../secret" = .ok true ∧
    normalize_url "http://h/../secret" = .ok "http://h/../secret" ∧
    save_path "http://h/../secret" = .ok "../secret.html" ∧
    staysInside "../secret.html" = false := by
  exact ⟨by decide, by decide, by decide, by decide⟩

/-- Claim C1: within one run, the network request for a normalized key is
made at most once — the fetch trace never repeats a URL — and once a URL is
in the visited set, dequeuing it again only removes it from the frontier
(a no-op on everything else, in particular no fetch, since the `continue`
fires before the `try` block). -/
theorem c1_fetch_at_most_once (env : Env) (sel : Finset String → String) (fuel : Nat)
    (seed : String) :
    (∀ u : String, (crawlFrom env sel fuel seed).fetched.count u ≤ 1) ∧
    (∀ s u, u ∈ s.visited → crawlStep env s u = { s with toVisit := s.toVisit.erase u }) := by
  constructor
  · have hinv := crawlLoop_inv
      (P := fun st => st.fetched.Nodup ∧ ∀ u ∈ st.fetched, u ∈ st.visited) env sel
      ?step fuel (initState seed) ⟨List.nodup_nil, fun u hu => absurd hu (List.not_mem_nil u)⟩
    · exact fun u => List.nodup_iff_count_le_one.mp hinv.1 u
    case step =>
      intro s u hP
      unfold crawlStep
      split
      · exact hP
      · next hu =>
        obtain ⟨h1, h2⟩ := hP
        refine ⟨?_, ?_⟩
        · rw [List.nodup_append]
          refine ⟨h1, List.nodup_singleton u, ?_⟩
          intro x hx hxu
          rw [List.mem_singleton] at hxu
          subst hxu
          exact hu (h2 x hx)
        · intro x hx
          rcases List.mem_append.mp hx with hx | hx
          · exact Finset.mem_insert_of_mem (h2 x hx)
          · rw [List.mem_singleton] at hx
            subst hx
            exact Finset.mem_insert_self _ _
  · intro s u hu
    unfold crawlStep
    rw [if_pos hu]

theorem c1_witness :
    (crawlFrom envA selA 5 "http://h/").fetched.count "http://h/" ≤ 1 ∧
    "http://h/" ∈ (crawlFrom envA selA 1 "http://h/").visited ∧
    crawlStep envA (crawlFrom envA selA 1 "http://h/") "http://h/" =
      { crawlFrom envA selA 1 "http://h/" with
        toVisit := (crawlFrom envA selA 1 "http://h/").toVisit.erase "http://h/" } := by
  refine ⟨(c1_fetch_at_most_once envA selA 5 "http://h/").1 "http://h/", by decide,
    (c1_fetch_at_most_once envA selA 5 "http://h/").2 _ _ (by decide)⟩

/-- Claim C2: the visited set never exceeds the page budget; when the loop
is done it either emptied the frontier or hit the budget exactly; and one
loop iteration adds at most one URL to the visited set. -/
theorem c2_budget (env : Env) (sel : Finset String → String) (fuel : Nat) (seed : String) :
    (crawlFrom env sel fuel seed).visited.card ≤ env.maxPages ∧
    (loopDone env (crawlFrom env sel fuel seed) →
      (crawlFrom env sel fuel seed).toVisit = ∅ ∨
      (crawlFrom env sel fuel seed).visited.card = env.maxPages) ∧
    (∀ s u, (crawlStep env s u).visited.card ≤ s.visited.card + 1) := by
  have hcard : (crawlFrom env sel fuel seed).visited.card ≤ env.maxPages :=
    crawlLoop_card_le env sel fuel (initState seed) (Nat.zero_le _)
  refine ⟨hcard, ?_, crawlStep_card_le env⟩
  intro hdone
  unfold loopDone at hdone
  by_cases hne : (crawlFrom env sel fuel seed).toVisit.Nonempty
  · right
    have hlt : ¬ (crawlFrom env sel fuel seed).visited.card < env.maxPages :=
      fun hc => hdone ⟨hne, hc⟩
    omega
  · left
    exact Finset.not_nonempty_iff_eq_empty.mp hne

theorem c2_witness :
    (crawlFrom envA selA 9 "http://h/").visited.card ≤ envA.maxPages ∧
    loopDone envA (crawlFrom envA selA 9 "http://h/") ∧
    ((crawlFrom envA selA 9 "http://h/").toVisit = ∅ ∨
      (crawlFrom envA selA 9 "http://h/").visited.card = envA.maxPages) := by
  refine ⟨(c2_budget envA selA 9 "http://h/").1, ?_, ?_⟩
  · unfold loopDone
    decide
  · exact (c2_budget envA selA 9 "http://h/").2.1 (by unfold loopDone; decide)

/-- The seed page of `envB` links only to `p1`, so no page of `envB` links
to the URL being processed. -/
theorem processURL_envB_seed (v : Finset String) :
    processURL envB v "http://h/" =
      ⟨if ("http://h/p1" : String) ∈ v then ∅ else {"http://h/p1"},
        some "index.html", false, true⟩ := by
  have hf : envB.fetch "http://h/" = some ⟨200, [104], some "utf-8"⟩ := by decide
  have hpc : pageContent envB ⟨200, [104], some "utf-8"⟩ = "page" := by decide
  have hhr : envB.parseHrefs "http://h/" "page" = ["http://h/p1"] := by decide
  have hsp : save_path "http://h/" = .ok "index.html" := by decide
  have hn : normalize_url "http://h/p1" = .ok "http://h/p1" := by decide
  have hva : is_valid_url envB.base "http://h/p1" = .ok true := by decide
  have hnil : extract_links envB.base [] v = .ok ∅ := rfl
  have hext : extract_links envB.base ["http://h/p1"] v =
      .ok (if ("http://h/p1" : String) ∈ v then ∅ else {"http://h/p1"}) := by
    unfold extract_links
    rw [hn, hva, hnil]
    dsimp only
    by_cases hm : ("http://h/p1" : String) ∈ v
    · rw [if_neg (by simp [hm]), if_pos hm]
    · rw [if_pos (by simp [hm]), if_neg hm]
      rfl
  simp only [processURL, hf]
  rw [if_pos (by trivial)]
  simp only [handlePage, hpc, hhr, hsp, hext]

theorem processURL_envB_p1 (v : Finset String) :
    processURL envB v "http://h/p1" = ⟨∅, some "p1.html", false, true⟩ := by
  have hf : envB.fetch "http://h/p1" = some ⟨200, [105], some "utf-8"⟩ := by decide
  have hpc : pageContent envB ⟨200, [105], some "utf-8"⟩ = "page" := by decide
  have hhr : envB.parseHrefs "http://h/p1" "page" = [] := by decide
  have hsp : save_path "http://h/p1" = .ok "p1.html" := by decide
  have hnil : extract_links envB.base [] v = .ok ∅ := rfl
  simp only [processURL, hf]
  rw [if_pos (by trivial)]
  simp only [handlePage, hpc, hhr, hsp, hnil]

theorem envB_no_self : ∀ (v : Finset String) (u : String),
    u ∉ (processURL envB v u).newLinks := by
  intro v u hmem
  by_cases h1 : u = "http://h/"
  · subst h1
    rw [processURL_envB_seed v] at hmem
    by_cases hm : ("http://h/p1" : String) ∈ v
    · rw [if_pos hm] at hmem
      exact absurd hmem (Finset.not_mem_empty _)
    · rw [if_neg hm] at hmem
      rw [Finset.mem_singleton] at hmem
      exact absurd hmem (by decide)
  · by_cases h2 : u = "http://h/p1"
    · subst h2
      rw [processURL_envB_p1 v] at hmem
      exact absurd hmem (Finset.not_mem_empty _)
    · have hf : envB.fetch u = none := by
        show (if u = "http://h/" then _ else if u = "http://h/p1" then _ else none) = none
        rw [if_neg h1, if_neg h2]
      simp only [processURL, hf] at hmem
      exact absurd hmem (Finset.not_mem_empty _)

/-- Claim C6 (amended): provided no fetched page links to the very URL
being processed, the visited set and the frontier are disjoint at every
point of the run.  The unrestricted claim fails on self-linking pages: see
the counterexample. -/
theorem c6_disjoint_amended (env : Env) (sel : Finset String → String) (fuel : Nat)
    (seed : String) (H : ∀ v u, u ∉ (processURL env v u).newLinks) :
    ∀ x ∈ (crawlFrom env sel fuel seed).visited, x ∉ (crawlFrom env sel fuel seed).toVisit := by
  have hinit : ∀ x ∈ (initState seed).visited, x ∉ (initState seed).toVisit := by
    intro x hx
    exact absurd hx (Finset.not_mem_empty x)
  refine crawlLoop_inv (P := fun st => ∀ x ∈ st.visited, x ∉ st.toVisit) env sel
    ?_ fuel _ hinit
  intro s u hP
  unfold crawlStep
  split
  · intro x hx hxin
    exact hP x hx (Finset.mem_of_mem_erase hxin)
  · next hu =>
    intro x hx hxin
    rcases Finset.mem_union.mp hxin with h1 | h1
    · rcases Finset.mem_insert.mp hx with rfl | hx2
      · exact Finset.not_mem_erase x s.toVisit h1
      · exact hP x hx2 (Finset.mem_of_mem_erase h1)
    · rcases Finset.mem_insert.mp hx with rfl | hx2
      · exact H s.visited x h1
      · exact processURL_newLinks_not_visited env s.visited u x h1 hx2

theorem c6_witness :
    (∀ x ∈ (crawlFrom envB selA 5 "http://h/").visited,
      x ∉ (crawlFrom envB selA 5 "http://h/").toVisit) ∧
    (crawlFrom envB selA 5 "http://h/").visited = {"http://h/", "http://h/p1"} := by
  exact ⟨c6_disjoint_amended envB selA 5 "http://h/" envB_no_self, by decide⟩

/-- Counterexample to claim C6 as stated: in `envA` the seed page links to
itself, and after the first iteration the seed URL is simultaneously in
the visited set and in the frontier. -/
theorem c6_counterexample :
    "http://h/" ∈ (crawlFrom envA selA 1 "http://h/").visited ∧
    "http://h/" ∈ (crawlFrom envA selA 1 "http://h/").toVisit := by
  exact ⟨by decide, by decide⟩

/-- Claim C7 (amended): a freshly dequeued URL whose fetch returns a
non-200 status is added to the visited set, writes no file, produces no
`Saved:` line, leaves the error log untouched (the code logs nothing for
non-200 statuses, contrary to the claim), still sleeps, and the loop
continues with the remaining frontier. -/
theorem c7_non200_amended (env : Env) (sel : Finset String → String) (s : CrawlState)
    (u : String) (r : Response) (fuel : Nat)
    (hf : env.fetch u = some r) (hs : r.status ≠ 200) (hv : u ∉ s.visited) :
    crawlStep env s u =
      { visited := insert u s.visited, toVisit := s.toVisit.erase u,
        fetched := s.fetched ++ [u], saved := s.saved, errors := s.errors,
        slept := s.slept + 1 } ∧
    (s.toVisit.Nonempty → s.visited.card < env.maxPages → sel s.toVisit = u →
      crawlLoop env sel (fuel + 1) s = crawlLoop env sel fuel (crawlStep env s u)) := by
  constructor
  · unfold crawlStep
    rw [if_neg hv]
    simp only [processURL, hf]
    rw [if_neg hs]
    simp [Option.toList]
  · intro h1 h2 h3
    rw [crawlLoop_succ_of_guard env sel fuel s h1 h2, h3]

theorem c7_witness :
    ((500 : Nat) ≠ 200) ∧
    crawlStep env500 (crawlFrom env500 sel500 1 "http://h/") "http://h/p1" =
      { visited := insert "http://h/p1" (crawlFrom env500 sel500 1 "http://h/").visited,
        toVisit := (crawlFrom env500 sel500 1 "http://h/").toVisit.erase "http://h/p1",
        fetched := (crawlFrom env500 sel500 1 "http://h/").fetched ++ ["http://h/p1"],
        saved := (crawlFrom env500 sel500 1 "http://h/").saved,
        errors := (crawlFrom env500 sel500 1 "http://h/").errors,
        slept := (crawlFrom env500 sel500 1 "http://h/").slept + 1 } := by
  refine ⟨by decide, ?_⟩
  exact (c7_non200_amended env500 sel500 (crawlFrom env500 sel500 1 "http://h/")
    "http://h/p1" ⟨500, [], some "utf-8"⟩ 0 (by decide) (by decide) (by decide)).1

/-- Counterexample to claim C7 as stated: with `p1` answering 500, the run
marks `p1` visited, writes no file for it, produces no `Saved:` line for
it, and continues to `p2` — but the error log stays empty: the non-200
outcome is never logged (the code has no `else` branch for it). -/
theorem c7_counterexample :
    env500.fetch "http://h/p1" = some ⟨500, [], some "utf-8"⟩ ∧
    (crawlFrom env500 sel500 5 "http://h/").errors = [] ∧
    "http://h/p1" ∈ (crawlFrom env500 sel500 5 "http://h/").visited ∧
    (crawlFrom env500 sel500 5 "http://h/").saved = ["index.html", "p2.html"] ∧
    (crawlFrom env500 sel500 5 "http://h/").fetched =
      ["http://h/", "http://h/p1", "http://h/p2"] := by
  exact ⟨by decide, by decide, by decide, by decide, by decide⟩

/-- Claim C9 (amended): the inter-request delay runs exactly in those
fetch-attempt iterations whose fetch returned a response and whose
processing raised no exception; a network error (or a processing
exception) skips `time.sleep`, because the call sits inside the `try`
block after the fetch.  In particular a non-200 response still sleeps and
a fetch error does not. -/
theorem c9_sleep_amended (env : Env) (sel : Finset String → String) (fuel : Nat)
    (seed : String) :
    (crawlFrom env sel fuel seed).slept =
      (crawlFrom env sel fuel seed).fetched.countP (fun u => attemptSleeps env u) ∧
    (∀ u, env.fetch u = none → attemptSleeps env u = false) ∧
    (∀ u r, env.fetch u = some r → r.status ≠ 200 → attemptSleeps env u = true) := by
  refine ⟨?_, ?_, ?_⟩
  · have hinv := crawlLoop_inv
      (P := fun st => st.slept = st.fetched.countP (fun u => attemptSleeps env u)) env sel
      ?step fuel (initState seed) rfl
    · exact hinv
    case step =>
      intro s u hP
      unfold crawlStep
      split
      · exact hP
      · show s.slept + (if (processURL env s.visited u).slept then 1 else 0) =
          (s.fetched ++ [u]).countP (fun u => attemptSleeps env u)
        rw [List.countP_append, processURL_slept_indep env s.visited u, hP]
        congr 1
        simp [List.countP_cons, attemptSleeps]
  · intro u h
    simp [attemptSleeps, processURL, h]
  · intro u r h hs
    simp [attemptSleeps, processURL, h, hs]

theorem c9_witness :
    (crawlFrom envErr selA 2 "http://h/").slept =
      (crawlFrom envErr selA 2 "http://h/").fetched.countP (fun u => attemptSleeps envErr u) ∧
    envErr.fetch "http://h/" = none ∧
    attemptSleeps envErr "http://h/" = false := by
  refine ⟨(c9_sleep_amended envErr selA 2 "http://h/").1, rfl,
    (c9_sleep_amended envErr selA 2 "http://h/").2.1 "http://h/" rfl⟩

/-- Counterexample to claim C9 as stated: in `envErr` the seed fetch is
attempted and raises, yet no delay runs — the sleep count stays 0 while
one fetch attempt was made. -/
theorem c9_counterexample :
    (crawlFrom envErr selA 2 "http://h/").fetched = ["http://h/"] ∧
    (crawlFrom envErr selA 2 "http://h/").slept = 0 ∧
    (crawlFrom envErr selA 2 "http://h/").slept ≠
      (crawlFrom envErr selA 2 "http://h/").fetched.length := by
  exact ⟨by decide, by decide, by decide⟩

end Mogzs

